import Mathlib

/-!
Verification of the scribe markdown code-fence test runner
(packages/scribe/src/parser.ts and packages/scribe/src/runner.ts),
as a shallow embedding in Lean 4.

The embedding models:
* `parseMarkdown` — the regex-driven fence extractor, including 1-based
  line tracking and the handling of unterminated fences;
* `filterTestableBlocks` — the language / opt-out eligibility filter;
* `runBlock` — the sandboxed executor's outcome shape (success, captured
  output, error message) over abstract bundling / vm outcomes;
* the bounded-concurrency worker pool of `run` as a transition system;
* the observable output and exit-code behaviour of `run` and `main`;
* the sandbox `require` shim and the shared `process.env` reference.
-/

namespace Scribe

/-- The backquote character (the fence delimiter of a markdown code fence). -/
def bq : Char := Char.ofNat 96

/-- Three backquotes: the fence delimiter `CODE_FENCE_REGEX` matches at a
line start. -/
def fenceChars : List Char := [bq, bq, bq]

/-- Does the character list start with a triple-backquote fence delimiter? -/
def startsWithFence : List Char → Bool
  | c1 :: c2 :: c3 :: _ => c1 = bq && c2 = bq && c3 = bq
  | _ => false

/-- JavaScript regex word character: the character class used by the
language capture group of `CODE_FENCE_REGEX` ([A-Za-z0-9_]). -/
def isWordChar (c : Char) : Bool := (c.isAlpha || c.isDigit) || c = '_'

/-- Embedding of JavaScript `String.prototype.toLowerCase` as used on
language tags (characterwise ASCII lowering). -/
def lowerStr (s : String) : String := String.mk (s.data.map Char.toLower)

/-- Embedding of JavaScript `String.prototype.trim` on character lists:
remove whitespace from both ends. -/
def listTrim (cs : List Char) : List Char :=
  ((cs.dropWhile Char.isWhitespace).reverse.dropWhile Char.isWhitespace).reverse

/-- One extracted code block, mirroring the `CodeBlock` interface in
parser.ts: language tag, raw body, origin file, 1-based line of the opening
fence, and the trimmed info string. -/
structure CodeBlock where
  language : String
  code : String
  file : String
  line : Nat
  meta : Option String
deriving DecidableEq, Repr

/-- Scan for the first line-start triple-backquote closing delimiter; the
Boolean flag records whether the current position is at a line start.
Returns the body before the delimiter and the remainder after it, mirroring
the lazy body capture of `CODE_FENCE_REGEX` followed by its line-anchored
closing delimiter. -/
def findClose : Bool → List Char → Option (List Char × List Char)
  | atLS, cs =>
    if atLS && startsWithFence cs then some ([], cs.drop 3)
    else
      match cs with
      | [] => none
      | c :: t =>
        match findClose (c = '\n') t with
        | some (body, rest) => some (c :: body, rest)
        | none => none

/-- Attempt to match one full fence at a position already past the opening
delimiter (`tl` is the text after the three backquotes).  Mirrors one
successful match of `CODE_FENCE_REGEX`: word characters for the language
capture, the rest of the line (all characters other than newline) as the
raw info capture, a required newline, then the lazy body up to a line-start
closing delimiter.  Because `dropWhile (· ≠ newline)` stops exactly at the
first newline, a nonempty remainder necessarily starts with the required
newline; an empty remainder means the info line reaches end-of-document
unterminated and the match fails. -/
def tryFenceTail (tl : List Char) : Option (List Char × List Char × List Char × List Char) :=
  match (tl.dropWhile isWordChar).dropWhile (fun c => c ≠ '\n') with
  | [] => none
  | _ :: bodyStart =>
    match findClose true bodyStart with
    | some (body, rest) =>
      some (tl.takeWhile isWordChar,
        (tl.dropWhile isWordChar).takeWhile (fun c => c ≠ '\n'), body, rest)
    | none => none

/-- Attempt to match one full fence (language capture, raw info capture,
body, remainder) at the current position, which is assumed to start with
the fence delimiter. -/
def tryFence (cs : List Char) : Option (List Char × List Char × List Char × List Char) :=
  tryFenceTail (cs.drop 3)

/-- Count newline characters. -/
def countNl (cs : List Char) : Nat := cs.count '\n'

theorem startsWithFence_decomp {cs : List Char} (h : startsWithFence cs = true) :
    cs = fenceChars ++ cs.drop 3 := by
  match cs with
  | [] | [_] | [_, _] => simp [startsWithFence] at h
  | c1 :: c2 :: c3 :: t =>
    simp only [startsWithFence, Bool.and_eq_true, decide_eq_true_eq] at h
    obtain ⟨⟨h1, h2⟩, h3⟩ := h
    subst h1; subst h2; subst h3
    rfl

theorem findClose_decomp : ∀ (atLS : Bool) (cs body rest : List Char),
    findClose atLS cs = some (body, rest) →
    cs = body ++ fenceChars ++ rest := by
  intro atLS cs
  induction cs generalizing atLS with
  | nil =>
    intro body rest h
    simp [findClose, startsWithFence] at h
  | cons c t ih =>
    intro body rest h
    rw [findClose] at h
    split at h
    · rename_i hfence
      injection h with h
      injection h with h1 h2
      subst h1; subst h2
      simp only [Bool.and_eq_true] at hfence
      exact (startsWithFence_decomp hfence.2).trans (by rfl)
    · match hrec : findClose (c = '\n') t with
      | some (body', rest') =>
        rw [hrec] at h
        injection h with h
        injection h with h1 h2
        subst h1; subst h2
        have := ih (c = '\n') body' rest' hrec
        simp [this]
      | none => rw [hrec] at h; exact absurd h (by simp)

theorem dropWhile_head_not {p : Char → Bool} :
    ∀ {l : List Char} {c : Char} {t : List Char},
      l.dropWhile p = c :: t → p c = false := by
  intro l
  induction l with
  | nil => intro c t h; simp [List.dropWhile] at h
  | cons a l ih =>
    intro c t h
    rw [List.dropWhile] at h
    by_cases hp : p a
    · rw [hp] at h; exact ih h
    · rw [Bool.not_eq_true] at hp
      rw [hp] at h
      injection h with h1 _
      subst h1
      exact hp

theorem tryFenceTail_decomp {tl lang info body rest : List Char}
    (h : tryFenceTail tl = some (lang, info, body, rest)) :
    tl = lang ++ info ++ '\n' :: (body ++ fenceChars ++ rest) ∧
    lang = tl.takeWhile isWordChar ∧
    info = (tl.dropWhile isWordChar).takeWhile (fun c => c ≠ '\n') := by
  rw [tryFenceTail] at h
  match hdrop : (tl.dropWhile isWordChar).dropWhile (fun c => decide (c ≠ '\n')) with
  | [] => rw [hdrop] at h; exact absurd h (by simp)
  | c0 :: bodyStart =>
    rw [hdrop] at h
    dsimp only at h
    have hc0 : c0 = '\n' := by
      have hnot := dropWhile_head_not hdrop
      simpa using hnot
    match hfc : findClose true bodyStart with
    | some (b', r') =>
      rw [hfc] at h
      injection h with h
      injection h with h1 h
      injection h with h2 h
      injection h with h3 h4
      subst h1; subst h2; subst h3; subst h4
      refine ⟨?_, rfl, rfl⟩
      have hbody := findClose_decomp true bodyStart b' r' hfc
      calc tl = tl.takeWhile isWordChar ++ tl.dropWhile isWordChar :=
            (List.takeWhile_append_dropWhile ..).symm
        _ = tl.takeWhile isWordChar ++
              ((tl.dropWhile isWordChar).takeWhile (fun c => decide (c ≠ '\n')) ++
               (tl.dropWhile isWordChar).dropWhile (fun c => decide (c ≠ '\n'))) := by
            simp [List.takeWhile_append_dropWhile]
        _ = tl.takeWhile isWordChar ++
              ((tl.dropWhile isWordChar).takeWhile (fun c => decide (c ≠ '\n')) ++
               ('\n' :: (b' ++ fenceChars ++ r'))) := by
            rw [hdrop, hc0, hbody]
        _ = tl.takeWhile isWordChar ++
              (tl.dropWhile isWordChar).takeWhile (fun c => decide (c ≠ '\n')) ++
              '\n' :: (b' ++ fenceChars ++ r') := by
            simp [List.append_assoc]
    | none => rw [hfc] at h; exact absurd h (by simp)

theorem tryFence_rest_lt {cs lang info body rest : List Char}
    (h : tryFence cs = some (lang, info, body, rest)) :
    rest.length < cs.length := by
  have hd := (tryFenceTail_decomp h).1
  have hlen := congrArg List.length hd
  simp only [List.length_drop, List.length_append, List.length_cons,
    fenceChars, List.length_nil] at hlen
  omega

/-- The main extraction loop of `parseMarkdown`, tracking for each produced
block its start index in the document (the position of its opening fence,
needed to state the line-number property).  Arguments: origin file, fuel
(a structural recursion bound — each step consumes at least one character,
so fuel starting at one more than the document length is never exhausted),
remaining characters, current 1-based line number, whether the position is
at a line start, and the absolute character index of the position. -/
def parseAux (file : String) : Nat → List Char → Nat → Bool → Nat → List (CodeBlock × Nat)
  | 0, _, _, _, _ => []
  | _ + 1, [], _, _, _ => []
  | fuel + 1, c :: t, ln, atLS, idx =>
    if atLS && startsWithFence (c :: t) then
      match tryFence (c :: t) with
      | some (lang, info, body, rest) =>
        ({ language := if lang.isEmpty then "text" else String.mk lang
           code := String.mk body
           file := file
           line := ln
           meta := some (String.mk (listTrim info)) }, idx) ::
          parseAux file fuel rest (ln + 1 + countNl body) false
            (idx + (3 + lang.length + info.length + 1 + body.length + 3))
      | none =>
        parseAux file fuel t (if c = '\n' then ln + 1 else ln) (c = '\n') (idx + 1)
    else
      parseAux file fuel t (if c = '\n' then ln + 1 else ln) (c = '\n') (idx + 1)

/-- `parseMarkdown` together with, for each block, the character index of
its opening fence within the document. -/
def parseMarkdownIdx (content filePath : String) : List (CodeBlock × Nat) :=
  parseAux filePath (content.data.length + 1) content.data 1 true 0

/-- Embedding of `parseMarkdown` (parser.ts): extract all matched code
fences from a document, in order. -/
def parseMarkdown (content filePath : String) : List CodeBlock :=
  (parseMarkdownIdx content filePath).map Prod.fst

/-- The eligible language list of `filterTestableBlocks` (parser.ts). -/
def testableLanguages : List String := ["typescript", "ts", "javascript", "js"]

/-- Does `p` occur at the head of `cs`? -/
def listStarts : List Char → List Char → Bool
  | [], _ => true
  | _ :: _, [] => false
  | p :: ps, c :: cs => p = c && listStarts ps cs

/-- Substring occurrence test on character lists. -/
def hasSub (pat : List Char) : List Char → Bool
  | [] => listStarts pat []
  | c :: t => listStarts pat (c :: t) || hasSub pat t

/-- Embedding of JavaScript `String.prototype.includes`: substring
containment. -/
def strIncludes (s pat : String) : Bool := hasSub pat.data s.data

/-- The eligibility predicate applied by `filterTestableBlocks`: language
(lowercased) in the testable list, and the info string — when present —
does not contain the substring "nocheck". -/
def isTestableBlock (b : CodeBlock) : Bool :=
  testableLanguages.contains (lowerStr b.language) &&
    !(match b.meta with
      | some m => strIncludes m "nocheck"
      | none => false)

/-- Embedding of `filterTestableBlocks` (parser.ts). -/
def filterTestableBlocks (blocks : List CodeBlock) : List CodeBlock :=
  blocks.filter isTestableBlock

/-- Modelled from the spec: splitting a string into standalone words
(maximal whitespace-free runs), used to state the spec's reading of the
opt-out token as occurring "as a standalone word" in the info string.
The accumulator carries the current word reversed. -/
def splitWordsAux : List Char → List Char → List (List Char)
  | [], acc => if acc = [] then [] else [acc.reverse]
  | c :: t, acc =>
    if Char.isWhitespace c then
      (if acc = [] then [] else [acc.reverse]) ++ splitWordsAux t []
    else splitWordsAux t (c :: acc)

/-- Modelled from the spec: does `s` contain `w` as a standalone word? -/
def specContainsWord (w s : String) : Bool :=
  (splitWordsAux s.data []).contains w.data

/-- Modelled from the spec (§4.3): keep records whose language
(case-insensitive) is in the testable set and whose info string does not
contain the opt-out token as a standalone word.  This is the spec's
predicate, to be compared against `isTestableBlock` from the source. -/
def specKeepsBlock (b : CodeBlock) : Bool :=
  testableLanguages.contains (lowerStr b.language) &&
    !(match b.meta with
      | some m => specContainsWord "nocheck" m
      | none => false)

/-- A JavaScript thrown value, as discriminated by the catch clause of
`runBlock` (runner.ts): either an `Error` instance carrying a message, or
any other value rendered through `String(err)`. -/
inductive JsVal where
  | errorObj (message : String)
  | other (asString : String)
deriving DecidableEq, Repr

/-- The error message extracted in the catch clause of `runBlock`:
`err instanceof Error ? err.message : String(err)`. -/
def jsErrMessage : JsVal → String
  | .errorObj m => m
  | .other s => s

/-- Result record of one block execution, mirroring the `RunResult`
interface of runner.ts (`error?` is optional, hence `Option`). -/
structure RunResult where
  block : CodeBlock
  success : Bool
  output : String
  error : Option String
deriving DecidableEq, Repr

/-- The esbuild loader selected for the block's stdin source. -/
inductive Loader where
  | ts
  | js
deriving DecidableEq, Repr

/-- The loader choice of `runBlock` (runner.ts):
`isTypeScript ? 'ts' : 'js'` where
`isTypeScript = block.language === 'typescript' || block.language === 'ts'`
— a case-sensitive comparison. -/
def blockLoader (b : CodeBlock) : Loader :=
  if b.language = "typescript" || b.language = "ts" then .ts else .js

/-- Outcome of running a bundled script inside the vm with a wall-clock
timeout: normal completion with the console shim's captured text, or a
thrown value (this includes the timeout, which surfaces as a thrown
`Error`) together with whatever console output had been captured before
the throw. -/
inductive VmOutcome where
  | ok (stdout : String)
  | thrown (partialStdout : String) (err : JsVal)
deriving DecidableEq, Repr

/-- Embedding of `runBlock` (runner.ts): bundle the block's source with
the loader chosen from its language tag, then execute in the sandbox; the
single surrounding try/catch converts a bundling error or a thrown value
during execution into a failing result whose `output` is the empty string
(any console output captured before the failure is discarded) and whose
`error` is the extracted message.  Bundling (`esbuild.build`) and vm
execution are abstract environments of the model. -/
def runBlock (bundler : String → Loader → Except JsVal String)
    (vmRun : String → VmOutcome) (b : CodeBlock) : RunResult :=
  match bundler b.code (blockLoader b) with
  | .error e => { block := b, success := false, output := "", error := some (jsErrMessage e) }
  | .ok code =>
    match vmRun code with
    | .ok stdout => { block := b, success := true, output := stdout, error := none }
    | .thrown _ e =>
      { block := b, success := false, output := "", error := some (jsErrMessage e) }

/-- The fixed literal list of the sandbox `require` shim (runner.ts):
`['assert', 'path', 'fs', 'util']`. -/
def requireAllowList : List String := ["assert", "path", "fs", "util"]

/-- The `node:` specifier scheme accepted by the shim via
`id.startsWith('node:')`. -/
def nodeColon : String := "node:"

/-- The shim's admission predicate:
`id.startsWith('node:') || ['assert', 'path', 'fs', 'util'].includes(id)`. -/
def isAllowedModule (id : String) : Bool :=
  listStarts nodeColon.data id.data || requireAllowList.contains id

/-- What the `require` shim does with a module identifier: delegate the
identifier to the host loader, or raise immediately. -/
inductive RequireOutcome where
  | hostResolution (id : String)
  | raised (message : String)
deriving DecidableEq, Repr

/-- Embedding of the sandbox `require` shim (runner.ts): admitted
identifiers are passed to the host `require`; everything else raises
immediately with a fixed message, without attempting resolution. -/
def requireShim (id : String) : RequireOutcome :=
  if isAllowedModule id then .hostResolution id
  else .raised ("Cannot require '" ++ id ++ "' - imports should be bundled by esbuild")

/-- The mutable string-to-string map behind `process.env`. -/
abbrev EnvMap := List (String × String)

/-- Property read on the env object. -/
def envGet (env : EnvMap) (k : String) : Option String :=
  (env.find? (fun p => p.1 = k)).map Prod.snd

/-- Property assignment on the env object (replace if present, else add). -/
def envSet (env : EnvMap) (k v : String) : EnvMap :=
  if env.any (fun p => p.1 = k) then
    env.map (fun p => if p.1 = k then (k, v) else p)
  else env ++ [(k, v)]

/-- Render a property read the way the console shim's `String(...)` would:
a missing property reads as `undefined`. -/
def showEnvVal : Option String → String
  | some v => v
  | none => "undefined"

/-- Properties of the host objects the sandbox of `runBlock` (runner.ts)
injects by reference and therefore shares across invocations: the `Error`
/ `TypeError` / `ReferenceError` / `SyntaxError` constructors (and their
prototypes), `Buffer`, the `assert` module object, the timer functions,
and host module objects returned by the `require` shim.  Keyed by
(object path, property name). -/
abbrev HostMap := List ((String × String) × String)

/-- Property read on a shared host object. -/
def hostGet (h : HostMap) (obj prop : String) : Option String :=
  (h.find? (fun p => p.1 = (obj, prop))).map Prod.snd

/-- Property assignment on a shared host object (replace if present, else
add). -/
def hostSet (h : HostMap) (obj prop v : String) : HostMap :=
  if h.any (fun p => p.1 = (obj, prop)) then
    h.map (fun p => if p.1 = (obj, prop) then ((obj, prop), v) else p)
  else h ++ [((obj, prop), v)]

/-- The mutable host state every sandbox invocation receives by reference:
the `process.env` object and the properties of the other shared host
objects (error constructors, `Buffer`, `assert`, timers, required
modules). -/
structure HostShared where
  env : EnvMap
  host : HostMap
deriving DecidableEq, Repr

/-- The actions a code block can perform through the globals the sandbox
of `runBlock` exposes to it: write to the console shim; read or write a
property of the shared `process.env` object (the sandbox is built with
`process: { env: process.env }`, so the env object is the host's, by
reference); read or mutate a property of any other shared host object
(`Error`/`TypeError`/`ReferenceError`/`SyntaxError` and their prototypes,
`Buffer`, `assert`, the timers, modules returned by the `require` shim —
all passed by reference into every sandbox); or throw. -/
inductive SandboxCmd where
  | consoleLog (s : String)
  | envRead (k : String)
  | envWrite (k v : String)
  | hostRead (obj prop : String)
  | hostWrite (obj prop v : String)
  | throwJs (e : JsVal)
deriving DecidableEq, Repr

/-- Run a block's actions: the console buffer grows in call order
(`stdout += ... + '\n'`); env and host-object reads are logged through the
console shim; a throw stops execution.  Returns the captured output, the
shared host state's final value, and the thrown value if any. -/
def execCmds : List SandboxCmd → String → HostShared → String × HostShared × Option JsVal
  | [], out, st => (out, st, none)
  | c :: rest, out, st =>
    match c with
    | .consoleLog s => execCmds rest (out ++ s ++ "\n") st
    | .envRead k => execCmds rest (out ++ showEnvVal (envGet st.env k) ++ "\n") st
    | .envWrite k v => execCmds rest out { st with env := envSet st.env k v }
    | .hostRead o p => execCmds rest (out ++ showEnvVal (hostGet st.host o p) ++ "\n") st
    | .hostWrite o p v => execCmds rest out { st with host := hostSet st.host o p v }
    | .throwJs e => (out, st, some e)

/-- `runBlock` over the concrete sandbox-action semantics: each invocation
creates a fresh console buffer and a fresh sandbox container object, but
receives the shared host state (env object and shared host objects) by
reference and returns its possibly-mutated value (which the host retains
for subsequent invocations).  Failure discards captured output and reports
the message, as in the catch clause. -/
def runBlockShared (cmds : List SandboxCmd) (b : CodeBlock) (st : HostShared) :
    RunResult × HostShared :=
  match execCmds cmds "" st with
  | (out, stAfter, none) =>
    ({ block := b, success := true, output := out, error := none }, stAfter)
  | (_, stAfter, some e) =>
    ({ block := b, success := false, output := "", error := some (jsErrMessage e) }, stAfter)

/-- Two consecutive `runBlock` invocations in one host process: the second
receives the shared host state as the first left it. -/
def runTwoShared (aCmds bCmds : List SandboxCmd) (ba bb : CodeBlock) (st : HostShared) :
    RunResult × RunResult × HostShared :=
  let first := runBlockShared aCmds ba st
  let second := runBlockShared bCmds bb first.2
  (first.1, second.1, second.2)

/-- Does the action list write any shared host state (the env object or a
property of a shared host object)? -/
def writesShared (cmds : List SandboxCmd) : Bool :=
  cmds.any (fun c =>
    match c with
    | .envWrite _ _ => true
    | .hostWrite _ _ _ => true
    | _ => false)

/-- One console/stderr event emitted by `run` through its `IO` interface. -/
inductive OutEvent where
  | out (s : String)
  | err (s : String)
deriving DecidableEq, Repr

/-- The eligible blocks of a resolved target: per file, parse then filter,
concatenated in file order — the `allBlocks` list of `run` (parser.ts). -/
def allBlocksOf (files : List (String × String)) : List CodeBlock :=
  files.flatMap (fun f => filterTestableBlocks (parseMarkdown f.2 f.1))

/-- The display label of a work item: `` `${shortFile}:${block.line}` ``
(the model uses the block's file path as the displayed file). -/
def blockLabel (b : CodeBlock) : String := b.file ++ ":" ++ Nat.repr b.line

/-- The permanent completion lines `printCompleted` writes for one result:
a check/cross line, plus one indented de-noised error line on failure when
a message is present.  `cleanErr` abstracts `cleanErrorMessage`. -/
def completionLines (cleanErr : String → String) (b : CodeBlock) (r : RunResult) :
    List OutEvent :=
  if r.success then [.out ("\x1b[32m✓\x1b[0m " ++ blockLabel b ++ "\n")]
  else
    [.out ("\x1b[31m✗\x1b[0m " ++ blockLabel b ++ "\n")] ++
      (match r.error with
       | some e => [.out ("  \x1b[90m" ++ cleanErr e ++ "\x1b[0m\n")]
       | none => [])

/-- The final summary line of `run`:
`` `${color}Results: ${passed}/${allBlocks.length} passed\x1b[0m\n` ``
with the red colour exactly when `failed > 0`. -/
def summaryLine (passed failed total : Nat) : String :=
  (if failed > 0 then "\x1b[31m" else "\x1b[32m") ++
    "Results: " ++ Nat.repr passed ++ "/" ++ Nat.repr total ++ " passed\x1b[0m\n"

/-- Observable behaviour of `run` (parser.ts): pass/fail counts plus the
ordered events written through the `IO` interface.  The filesystem is
abstracted as the resolved target: `none` when `stat` fails (path not
found), otherwise the list of (path, content) markdown files.  Block
execution is abstracted by `exec`; the model emits completion lines in
work-list order (the scheduler's interleaving only permutes completion
lines and is verified separately).  Interactive-mode live-region redraws
go through `logUpdate`, not the `IO` interface, and are not events here. -/
def runModel (exec : CodeBlock → RunResult) (cleanErr : String → String)
    (targetPath : String) (target : Option (List (String × String)))
    (concurrency : Nat) : (Nat × Nat) × List OutEvent :=
  match target with
  | none => ((0, 1), [.err ("Error: Path not found: " ++ targetPath ++ "\n")])
  | some files =>
    let found : OutEvent := .out ("Found " ++ Nat.repr files.length ++
      " markdown file(s) (" ++ Nat.repr concurrency ++ " workers)\n\n")
    let allBlocks := allBlocksOf files
    if allBlocks.isEmpty then
      ((0, 0), [found, .out "No testable code blocks found.\n"])
    else
      let passed := (allBlocks.filter (fun b => (exec b).success)).length
      let failed := (allBlocks.filter (fun b => !(exec b).success)).length
      ((passed, failed),
        [found] ++
          allBlocks.flatMap (fun b => completionLines cleanErr b (exec b)) ++
          [.out "\n", .out (summaryLine passed failed allBlocks.length)])

/-- The exit code `main` (parser.ts) produces from `run`'s counts:
`process.exit(1)` when `failed > 0`, otherwise the process ends normally
with code 0. -/
def mainExitCode (counts : Nat × Nat) : Nat := if counts.2 > 0 then 1 else 0

/-- Status of one worker lane of `run`'s scheduler. -/
inductive WStatus where
  | idle
  | running (idx : Nat)
  | done
deriving DecidableEq, Repr

/-- Is the worker currently executing a block? -/
def WStatus.isRunning : WStatus → Bool
  | .running _ => true
  | _ => false

/-- State of the bounded worker pool of `run` (parser.ts): the shared
`nextIndex` cursor, each spawned worker's status, and how many times each
results slot has been written. -/
structure Sched where
  cursor : Nat
  workers : List WStatus
  results : List Nat
deriving DecidableEq, Repr

/-- Initial scheduler state for M work items and concurrency N:
`Math.min(concurrency, allBlocks.length)` workers are spawned
(`Array.from({ length: Math.min(concurrency, allBlocks.length) }, ...)`),
the cursor starts at 0, and no results slot has been written. -/
def initSched (n m : Nat) : Sched :=
  { cursor := 0
    workers := List.replicate (min n m) .idle
    results := List.replicate m 0 }

/-- One atomic step of the worker pool.  JavaScript's event loop only
interleaves the worker bodies at `await` points, so the claim of the next
index (`const index = nextIndex++` guarded by `nextIndex < allBlocks.length`,
with no intervening `await`) is a single atomic step; executing the block
and writing `results[index]` is the step that completes a claim; a worker
whose guard sees an exhausted cursor terminates. -/
inductive SchedStep (m : Nat) : Sched → Sched → Prop where
  | claim (s : Sched) (w : Nat) (hw : s.workers.get? w = some .idle)
      (hc : s.cursor < m) :
      SchedStep m s
        { cursor := s.cursor + 1
          workers := s.workers.set w (.running s.cursor)
          results := s.results }
  | finish (s : Sched) (w i : Nat) (hw : s.workers.get? w = some (.running i)) :
      SchedStep m s
        { cursor := s.cursor
          workers := s.workers.set w .idle
          results := s.results.set i (s.results.getD i 0 + 1) }
  | stop (s : Sched) (w : Nat) (hw : s.workers.get? w = some .idle)
      (hc : m ≤ s.cursor) :
      SchedStep m s
        { cursor := s.cursor
          workers := s.workers.set w .done
          results := s.results }

/-- States the pool can reach from the initial state. -/
def SchedReachable (n m : Nat) (s : Sched) : Prop :=
  Relation.ReflTransGen (SchedStep m) (initSched n m) s

/-- Number of block executions in flight: workers currently running. -/
def inFlight (s : Sched) : Nat := s.workers.countP (fun w => w.isRunning)

/-- All workers have terminated. -/
def SchedTerminal (s : Sched) : Bool := s.workers.all (fun w => w = .done)

/-- How many workers are currently executing work item `i`. -/
def runCount (ws : List WStatus) (i : Nat) : Nat :=
  ws.countP (fun w => w = .running i)

/-- The inductive invariant of the worker pool: worker count fixed at
`min n m`; results array sized `m`; the cursor never passes `m`; every
item before the cursor is accounted for exactly once (already written, or
claimed by exactly one running worker); running workers hold claimed
in-range indices; and a terminated worker implies the queue was exhausted. -/
structure SchedInv (n m : Nat) (s : Sched) : Prop where
  wlen : s.workers.length = min n m
  rlen : s.results.length = m
  cle : s.cursor ≤ m
  balance : ∀ i, i < m →
    s.results.getD i 0 + runCount s.workers i = (if i < s.cursor then 1 else 0)
  runLt : ∀ w i, s.workers.get? w = some (.running i) → i < s.cursor ∧ i < m
  doneCursor : ∀ w, s.workers.get? w = some .done → m ≤ s.cursor

theorem countNl_append (l1 l2 : List Char) :
    countNl (l1 ++ l2) = countNl l1 + countNl l2 := by
  simp [countNl, List.count_append]

theorem countNl_of_all_ne {l : List Char} (h : ∀ c ∈ l, ¬ c = '\n') :
    countNl l = 0 := by
  simp only [countNl, List.count_eq_zero]
  intro hmem
  exact h '\n' hmem rfl

theorem countNl_takeWhile_word (l : List Char) :
    countNl (l.takeWhile isWordChar) = 0 := by
  refine countNl_of_all_ne fun c hc => ?_
  have := List.takeWhile_subset (p := isWordChar) (l := l) hc
  have hw : isWordChar c = true := by
    have hmem := hc
    exact List.mem_takeWhile_imp hmem
  intro he
  subst he
  simp [isWordChar, Char.isAlpha, Char.isUpper, Char.isLower, Char.isDigit] at hw

theorem countNl_takeWhile_ne (l : List Char) :
    countNl (l.takeWhile (fun c => c ≠ '\n')) = 0 := by
  refine countNl_of_all_ne fun c hc => ?_
  have hw := List.mem_takeWhile_imp hc
  simpa using hw

theorem countNl_fenceChars : countNl fenceChars = 0 := by decide

/-- Every block produced by `parseAux` records as its `line` field the
running line count at the opening fence, i.e. the initial line number plus
the newlines in the characters scanned before the fence; and its recorded
index points at a fence delimiter. -/
theorem parseAux_line (file : String) (fuel : Nat) (cs : List Char) (ln : Nat)
    (atLS : Bool) (idx : Nat) :
    ∀ (b : CodeBlock) (i : Nat),
      (b, i) ∈ parseAux file fuel cs ln atLS idx →
      ∃ k, i = idx + k ∧ k ≤ cs.length ∧
        startsWithFence (cs.drop k) = true ∧
        b.line = ln + countNl (cs.take k) := by
  induction fuel, cs, ln, atLS, idx using parseAux.induct file with
  | case1 cs ln atLS idx => intro b i h; simp [parseAux] at h
  | case2 fuel ln atLS idx => intro b i h; simp [parseAux] at h
  | case3 fuel c t ln atLS idx hcond lang info body rest htf ih =>
    intro b i h
    rw [parseAux] at h
    rw [if_pos hcond, htf] at h
    rcases List.mem_cons.mp h with hhead | htail
    · injection hhead with hb hi
      subst hb; subst hi
      refine ⟨0, by omega, by omega, ?_, by simp [countNl]⟩
      simpa using (Bool.and_eq_true .. ▸ hcond).2
    · obtain ⟨k', hk1, hk2, hk3, hk4⟩ := ih b i htail
      have hsw : startsWithFence (c :: t) = true := (Bool.and_eq_true .. ▸ hcond).2
      have hdec := tryFenceTail_decomp htf
      have hfull : c :: t =
          (fenceChars ++ lang ++ info ++ '\n' :: (body ++ fenceChars)) ++ rest := by
        have h1 : c :: t = fenceChars ++ (c :: t).drop 3 := startsWithFence_decomp hsw
        rw [h1, hdec.1]
        simp [List.append_assoc]
      set pre : List Char := fenceChars ++ lang ++ info ++ '\n' :: (body ++ fenceChars)
        with hpre
      have hprelen : pre.length =
          3 + lang.length + info.length + 1 + body.length + 3 := by
        simp [hpre, fenceChars]
        omega
      have hfcnl : List.count '\n' fenceChars = 0 := by decide
      have hprenl : countNl pre = 1 + countNl body := by
        have hlang : countNl lang = 0 := by
          rw [hdec.2.1]; exact countNl_takeWhile_word _
        have hinfo : countNl info = 0 := by
          rw [hdec.2.2]; exact countNl_takeWhile_ne _
        simp only [countNl] at hlang hinfo ⊢
        simp only [hpre, List.count_append, List.count_cons, hlang, hinfo, hfcnl]
        simp
        omega
      refine ⟨pre.length + k', by omega, ?_, ?_, ?_⟩
      · have hlen : t.length + 1 = pre.length + rest.length := by
          have hc := congrArg List.length hfull
          simpa using hc
        simp only [List.length_cons]
        omega
      · rw [hfull, List.drop_append k']
        exact hk3
      · rw [hfull, List.take_append k', countNl_append, hprenl, hk4]
        omega
  | case4 fuel c t ln atLS idx hcond htf ih =>
    intro b i h
    rw [parseAux] at h
    rw [if_pos hcond, htf] at h
    obtain ⟨k', hk1, hk2, hk3, hk4⟩ := ih b i h
    refine ⟨k' + 1, by omega, by simp; omega, by simpa using hk3, ?_⟩
    simp only [List.take_cons, countNl]
    rw [hk4]
    by_cases hc : c = '\n' <;> simp [hc, countNl, List.count_cons] <;> omega
  | case5 fuel c t ln atLS idx hcond ih =>
    intro b i h
    rw [parseAux] at h
    rw [if_neg hcond] at h
    obtain ⟨k', hk1, hk2, hk3, hk4⟩ := ih b i h
    refine ⟨k' + 1, by omega, by simp; omega, by simpa using hk3, ?_⟩
    simp only [List.take_cons, countNl]
    rw [hk4]
    by_cases hc : c = '\n' <;> simp [hc, countNl, List.count_cons] <;> omega

/-- Every block produced by `parseAux` comes from a matched fence: at the
recorded index the document decomposes as opening delimiter, language
capture (a word-character run), raw info capture (the rest of that line),
the required newline, the body — exactly the text between the two fence
lines — and the closing delimiter followed by the remainder; and the
block's fields are built from those captures exactly as in the source:
language is the capture as written (default "text" when empty), code is
the body, meta is the trimmed info. -/
theorem parseAux_record (file : String) (fuel : Nat) (cs : List Char) (ln : Nat)
    (atLS : Bool) (idx : Nat) :
    ∀ (b : CodeBlock) (i : Nat),
      (b, i) ∈ parseAux file fuel cs ln atLS idx →
      ∃ k lang info body rest,
        i = idx + k ∧
        cs.drop k = fenceChars ++ (lang ++ info ++ '\n' :: (body ++ fenceChars ++ rest)) ∧
        lang = ((cs.drop k).drop 3).takeWhile isWordChar ∧
        info = (((cs.drop k).drop 3).dropWhile isWordChar).takeWhile (fun c => c ≠ '\n') ∧
        b.language = (if lang.isEmpty then "text" else String.mk lang) ∧
        b.code = String.mk body ∧
        b.file = file ∧
        b.meta = some (String.mk (listTrim info)) := by
  induction fuel, cs, ln, atLS, idx using parseAux.induct file with
  | case1 cs ln atLS idx => intro b i h; simp [parseAux] at h
  | case2 fuel ln atLS idx => intro b i h; simp [parseAux] at h
  | case3 fuel c t ln atLS idx hcond lang info body rest htf ih =>
    intro b i h
    rw [parseAux] at h
    rw [if_pos hcond, htf] at h
    rcases List.mem_cons.mp h with hhead | htail
    · injection hhead with hb hi
      subst hb; subst hi
      have hsw : startsWithFence (c :: t) = true := (Bool.and_eq_true .. ▸ hcond).2
      have hdec := tryFenceTail_decomp htf
      refine ⟨0, lang, info, body, rest, by omega, ?_, ?_, ?_, rfl, rfl, rfl, rfl⟩
      · show c :: t = fenceChars ++ (lang ++ info ++ '\n' :: (body ++ fenceChars ++ rest))
        have h1 := startsWithFence_decomp hsw
        rw [h1, hdec.1]
      · simpa using hdec.2.1
      · simpa using hdec.2.2
    · obtain ⟨k', lang', info', body', rest', hk1, hk2, hk3, hk4, hb1, hb2, hb3, hb4⟩ :=
        ih b i htail
      have hsw : startsWithFence (c :: t) = true := (Bool.and_eq_true .. ▸ hcond).2
      have hdec := tryFenceTail_decomp htf
      have hfull : c :: t =
          (fenceChars ++ lang ++ info ++ '\n' :: (body ++ fenceChars)) ++ rest := by
        have h1 : c :: t = fenceChars ++ (c :: t).drop 3 := startsWithFence_decomp hsw
        rw [h1, hdec.1]
        simp [List.append_assoc]
      set pre : List Char := fenceChars ++ lang ++ info ++ '\n' :: (body ++ fenceChars)
        with hpre
      have hprelen : pre.length =
          3 + lang.length + info.length + 1 + body.length + 3 := by
        simp [hpre, fenceChars]
        omega
      refine ⟨pre.length + k', lang', info', body', rest', by omega, ?_, ?_, ?_,
        hb1, hb2, hb3, hb4⟩
      · rw [hfull, List.drop_append k']
        exact hk2
      · rw [hfull, List.drop_append k']
        exact hk3
      · rw [hfull, List.drop_append k']
        exact hk4
  | case4 fuel c t ln atLS idx hcond htf ih =>
    intro b i h
    rw [parseAux] at h
    rw [if_pos hcond, htf] at h
    obtain ⟨k', lang', info', body', rest', hk1, hk2, hk3, hk4, hb1, hb2, hb3, hb4⟩ :=
      ih b i h
    refine ⟨k' + 1, lang', info', body', rest', by omega, ?_, ?_, ?_, hb1, hb2, hb3, hb4⟩
    · simpa using hk2
    · simpa using hk3
    · simpa using hk4
  | case5 fuel c t ln atLS idx hcond ih =>
    intro b i h
    rw [parseAux] at h
    rw [if_neg hcond] at h
    obtain ⟨k', lang', info', body', rest', hk1, hk2, hk3, hk4, hb1, hb2, hb3, hb4⟩ :=
      ih b i h
    refine ⟨k' + 1, lang', info', body', rest', by omega, ?_, ?_, ?_, hb1, hb2, hb3, hb4⟩
    · simpa using hk2
    · simpa using hk3
    · simpa using hk4

theorem countP_set {α : Type} (l : List α) (n : Nat) (a : α) (p : α → Bool)
    (h : n < l.length) :
    (l.set n a).countP p + (if p (l.get ⟨n, h⟩) then 1 else 0) =
      l.countP p + (if p a then 1 else 0) := by
  induction l generalizing n with
  | nil => simp at h
  | cons x xs ih =>
    cases n with
    | zero =>
      simp only [List.set, List.countP_cons, List.get]
      omega
    | succ k =>
      have hk : k < xs.length := by simpa using h
      have := ih k hk
      simp only [List.set, List.countP_cons, List.get]
      omega

theorem runCount_pos {ws : List WStatus} {w i : Nat}
    (hw : ws.get? w = some (.running i)) : 0 < runCount ws i := by
  refine List.countP_pos_iff.mpr ⟨.running i, List.get?_mem hw, by simp⟩

theorem schedInv_init (n m : Nat) : SchedInv n m (initSched n m) := by
  constructor
  · simp [initSched]
  · simp [initSched]
  · exact Nat.zero_le m
  · intro i hi
    simp [initSched, runCount, List.countP_replicate, List.getD]
  · intro w i hget
    have hmem := List.get?_mem hget
    simp only [initSched] at hmem
    have := List.eq_of_mem_replicate hmem
    exact absurd this (by simp)
  · intro w hget
    have hmem := List.get?_mem hget
    simp only [initSched] at hmem
    have := List.eq_of_mem_replicate hmem
    exact absurd this (by simp)

theorem schedInv_step {n m : Nat} {s s' : Sched} (inv : SchedInv n m s)
    (st : SchedStep m s s') : SchedInv n m s' := by
  cases st with
  | claim w hw hc =>
    have hwlt : w < s.workers.length := (List.get?_eq_some.mp hw).1
    have hgetw : s.workers.get ⟨w, hwlt⟩ = .idle := by
      obtain ⟨h1, h2⟩ := List.get?_eq_some.mp hw
      simpa [h1] using h2
    refine ⟨?_, ?_, ?_, ?_, ?_, ?_⟩
    · show (s.workers.set w (WStatus.running s.cursor)).length = min n m
      simpa using inv.wlen
    · exact inv.rlen
    · show s.cursor + 1 ≤ m
      omega
    · intro i hi
      show s.results.getD i 0 +
          runCount (s.workers.set w (.running s.cursor)) i =
          if i < s.cursor + 1 then 1 else 0
      have hcnt := countP_set s.workers w (.running s.cursor)
        (fun x => x = .running i) hwlt
      rw [hgetw] at hcnt
      have hbal := inv.balance i hi
      simp only [runCount] at hbal ⊢
      rcases Nat.lt_trichotomy i s.cursor with hlt | heq | hgt
      · rw [if_pos hlt] at hbal
        rw [if_pos (show i < s.cursor + 1 by omega)]
        have hne : s.cursor ≠ i := by omega
        simp [hne] at hcnt
        omega
      · subst heq
        rw [if_neg (by omega)] at hbal
        rw [if_pos (by omega)]
        simp at hcnt
        omega
      · rw [if_neg (by omega)] at hbal
        rw [if_neg (by omega)]
        have hne : s.cursor ≠ i := by omega
        simp [hne] at hcnt
        omega
    · intro w' i hget
      show i < s.cursor + 1 ∧ i < m
      simp only at hget
      by_cases hww : w' = w
      · subst hww
        rw [List.get?_set_eq_of_lt _ hwlt] at hget
        injection hget with hget
        injection hget with hi
        subst hi
        exact ⟨by omega, hc⟩
      · rw [List.get?_set_ne _ _ (fun hh => hww hh.symm)] at hget
        have := inv.runLt w' i hget
        exact ⟨by omega, this.2⟩
    · intro w' hget
      show m ≤ s.cursor + 1
      simp only at hget
      by_cases hww : w' = w
      · subst hww
        rw [List.get?_set_eq_of_lt _ hwlt] at hget
        simp at hget
      · rw [List.get?_set_ne _ _ (fun hh => hww hh.symm)] at hget
        have := inv.doneCursor w' hget
        omega
  | finish w i hw =>
    have hwlt : w < s.workers.length := (List.get?_eq_some.mp hw).1
    have hgetw : s.workers.get ⟨w, hwlt⟩ = .running i := by
      obtain ⟨h1, h2⟩ := List.get?_eq_some.mp hw
      simpa [h1] using h2
    have hri := inv.runLt w i hw
    have hilt : i < s.results.length := by rw [inv.rlen]; exact hri.2
    refine ⟨?_, ?_, ?_, ?_, ?_, ?_⟩
    · show (s.workers.set w WStatus.idle).length = min n m
      simpa using inv.wlen
    · show (s.results.set i (s.results.getD i 0 + 1)).length = m
      simpa using inv.rlen
    · exact inv.cle
    · intro j hj
      show (s.results.set i (s.results.getD i 0 + 1)).getD j 0 +
          runCount (s.workers.set w .idle) j = if j < s.cursor then 1 else 0
      have hcnt := countP_set s.workers w .idle (fun x => x = .running j) hwlt
      rw [hgetw] at hcnt
      have hbal := inv.balance j hj
      simp only [runCount] at hbal ⊢
      by_cases hij : i = j
      · subst hij
        have hset : (s.results.set i (s.results.getD i 0 + 1)).getD i 0 =
            s.results.getD i 0 + 1 := by
          simp [List.getD_eq_getElem?_getD, List.getElem?_set_eq hilt]
        rw [hset]
        simp at hcnt
        omega
      · have hset : (s.results.set i (s.results.getD i 0 + 1)).getD j 0 =
            s.results.getD j 0 := by
          simp [List.getD_eq_getElem?_getD, List.getElem?_set_ne hij]
        rw [hset]
        simp [hij] at hcnt
        omega
    · intro w' j hget
      show j < s.cursor ∧ j < m
      simp only at hget
      by_cases hww : w' = w
      · subst hww
        rw [List.get?_set_eq_of_lt _ hwlt] at hget
        simp at hget
      · rw [List.get?_set_ne _ _ (fun hh => hww hh.symm)] at hget
        exact inv.runLt w' j hget
    · intro w' hget
      show m ≤ s.cursor
      simp only at hget
      by_cases hww : w' = w
      · subst hww
        rw [List.get?_set_eq_of_lt _ hwlt] at hget
        simp at hget
      · rw [List.get?_set_ne _ _ (fun hh => hww hh.symm)] at hget
        exact inv.doneCursor w' hget
  | stop w hw hc =>
    have hwlt : w < s.workers.length := (List.get?_eq_some.mp hw).1
    have hgetw : s.workers.get ⟨w, hwlt⟩ = .idle := by
      obtain ⟨h1, h2⟩ := List.get?_eq_some.mp hw
      simpa [h1] using h2
    refine ⟨?_, ?_, ?_, ?_, ?_, ?_⟩
    · show (s.workers.set w WStatus.done).length = min n m
      simpa using inv.wlen
    · exact inv.rlen
    · exact inv.cle
    · intro j hj
      show s.results.getD j 0 + runCount (s.workers.set w .done) j =
          if j < s.cursor then 1 else 0
      have hcnt := countP_set s.workers w .done (fun x => x = .running j) hwlt
      rw [hgetw] at hcnt
      have hbal := inv.balance j hj
      simp only [runCount] at hbal ⊢
      simp at hcnt
      omega
    · intro w' j hget
      show j < s.cursor ∧ j < m
      simp only at hget
      by_cases hww : w' = w
      · subst hww
        rw [List.get?_set_eq_of_lt _ hwlt] at hget
        simp at hget
      · rw [List.get?_set_ne _ _ (fun hh => hww hh.symm)] at hget
        exact inv.runLt w' j hget
    · intro w' _
      exact hc

theorem schedInv_reachable {n m : Nat} {s : Sched} (h : SchedReachable n m s) :
    SchedInv n m s := by
  induction h with
  | refl => exact schedInv_init n m
  | tail _ hstep ih => exact schedInv_step ih hstep

theorem takeWhile_append_all {p : Char → Bool} (l1 l2 : List Char)
    (h : ∀ c ∈ l1, p c = true) :
    (l1 ++ l2).takeWhile p = l1 ++ l2.takeWhile p := by
  induction l1 with
  | nil => simp
  | cons x xs ih =>
    have hx : p x = true := h x (by simp)
    simp only [List.cons_append, List.takeWhile_cons, hx, if_true]
    rw [ih (fun c hc => h c (by simp [hc]))]

theorem dropWhile_append_all {p : Char → Bool} (l1 l2 : List Char)
    (h : ∀ c ∈ l1, p c = true) :
    (l1 ++ l2).dropWhile p = l2.dropWhile p := by
  induction l1 with
  | nil => simp
  | cons x xs ih =>
    have hx : p x = true := h x (by simp)
    simp only [List.cons_append, List.dropWhile_cons, hx, if_true]
    exact ih (fun c hc => h c (by simp [hc]))

theorem parseAux_nil (file : String) (fuel ln idx : Nat) (atLS : Bool) :
    parseAux file fuel [] ln atLS idx = [] := by
  cases fuel with
  | zero => rw [parseAux]
  | succ k => rw [parseAux]

/-- A single well-formed fence is extracted exactly: the language capture
is the word-character run after the delimiter (kept in its original case,
defaulting to "text" when empty), the body is exactly the characters
between the two fence lines, the info string is trimmed, and the opening
fence is on line 1. -/
theorem parse_single_fence (lang info body : List Char) (file : String)
    (hlang : ∀ c ∈ lang, isWordChar c = true)
    (hinfoNl : ∀ c ∈ info, (c ≠ '\n' : Bool) = true)
    (hinfoHead : ∀ c t, info = c :: t → isWordChar c = false)
    (hclose : findClose true (body ++ fenceChars) = some (body, [])) :
    parseMarkdown (String.mk (fenceChars ++ (lang ++ info ++ '\n' :: (body ++ fenceChars))))
        file =
      [{ language := if lang.isEmpty then "text" else String.mk lang
         code := String.mk body
         file := file
         line := 1
         meta := some (String.mk (listTrim info)) }] := by
  set Z : List Char := body ++ fenceChars with hZ
  set Y : List Char := lang ++ info ++ '\n' :: Z with hY
  have hnlw : isWordChar '\n' = false := by decide
  have hdropY : Y.dropWhile isWordChar = info ++ '\n' :: Z := by
    rw [hY, List.append_assoc, dropWhile_append_all lang _ hlang]
    cases info with
    | nil =>
      simp only [List.nil_append, List.dropWhile_cons, hnlw]
      simp
    | cons c t =>
      have := hinfoHead c t rfl
      simp only [List.cons_append, List.dropWhile_cons, this]
      simp
  have htakeY : Y.takeWhile isWordChar = lang := by
    rw [hY, List.append_assoc, takeWhile_append_all lang _ hlang]
    cases info with
    | nil =>
      simp only [List.nil_append, List.takeWhile_cons, hnlw]
      simp
    | cons c t =>
      have := hinfoHead c t rfl
      simp only [List.cons_append, List.takeWhile_cons, this]
      simp
  have hdropInfo : (info ++ '\n' :: Z).dropWhile (fun c => c ≠ '\n') = '\n' :: Z := by
    rw [dropWhile_append_all info _ hinfoNl]
    simp [List.dropWhile_cons]
  have htakeInfo : (info ++ '\n' :: Z).takeWhile (fun c => c ≠ '\n') = info := by
    rw [takeWhile_append_all info _ hinfoNl]
    simp [List.takeWhile_cons]
  have htf : tryFence (bq :: bq :: bq :: Y) = some (lang, info, body, []) := by
    show tryFenceTail Y = some (lang, info, body, [])
    rw [tryFenceTail]
    rw [hdropY, hdropInfo]
    dsimp only
    rw [hclose]
    dsimp only
    rw [htakeY, htakeInfo]
  have hsw : startsWithFence (bq :: bq :: bq :: Y) = true := by
    simp [startsWithFence]
  show (parseAux file ((fenceChars ++ Y).length + 1) (fenceChars ++ Y) 1 true 0).map
      Prod.fst = _
  have hcons : fenceChars ++ Y = bq :: bq :: bq :: Y := rfl
  rw [hcons]
  rw [parseAux, if_pos (by rw [hsw]; rfl), htf]
  dsimp only
  rw [parseAux_nil]
  simp

theorem execCmds_no_writes {cmds : List SandboxCmd} (h : writesShared cmds = false) :
    ∀ out st, (execCmds cmds out st).2.1 = st := by
  induction cmds with
  | nil => intro out st; rfl
  | cons c rest ih =>
    intro out st
    have hrest : writesShared rest = false := by
      simp [writesShared] at h ⊢
      intro x hx
      exact h.2 x hx
    cases c with
    | consoleLog s => exact ih hrest _ _
    | envRead k => exact ih hrest _ _
    | envWrite k v => simp [writesShared] at h
    | hostRead o p => exact ih hrest _ _
    | hostWrite o p v => simp [writesShared] at h
    | throwJs e => rfl

theorem runBlockShared_no_writes {cmds : List SandboxCmd}
    (h : writesShared cmds = false) (b : CodeBlock) (st : HostShared) :
    (runBlockShared cmds b st).2 = st := by
  rw [runBlockShared]
  have := execCmds_no_writes h "" st
  rcases hx : execCmds cmds "" st with ⟨out, stAfter, thrown⟩
  rw [hx] at this
  cases thrown with
  | none => simpa using this
  | some e => simpa using this

theorem isTestableBlock_iff (b : CodeBlock) :
    isTestableBlock b = true ↔
      (lowerStr b.language ∈ testableLanguages ∧
        ∀ metaStr, b.meta = some metaStr → strIncludes metaStr "nocheck" = false) := by
  rw [isTestableBlock, Bool.and_eq_true]
  constructor
  · rintro ⟨h1, h2⟩
    refine ⟨List.elem_iff.mp h1, ?_⟩
    intro ms hms
    rw [hms] at h2
    simpa using h2
  · rintro ⟨h1, h2⟩
    refine ⟨List.elem_iff.mpr h1, ?_⟩
    cases hm : b.meta with
    | none => simp
    | some ms => simp [h2 ms hm]

/-- C1: `runBlock` is a pure boundary: for every block and every outcome of
bundling and vm execution it returns exactly one `RunResult`; a successful
run returns the captured output with no error; a bundling failure or any
value thrown during execution (timeouts included) yields
`success = false`, `output = ""` (console output captured before the
failure is discarded), and a defined (`some`) error message. -/
theorem runBlock_pure_boundary (bundler : String → Loader → Except JsVal String)
    (vmRun : String → VmOutcome) (b : CodeBlock) :
    (∀ code stdout, bundler b.code (blockLoader b) = .ok code →
      vmRun code = .ok stdout →
      runBlock bundler vmRun b = ⟨b, true, stdout, none⟩) ∧
    (∀ e, bundler b.code (blockLoader b) = .error e →
      runBlock bundler vmRun b = ⟨b, false, "", some (jsErrMessage e)⟩) ∧
    (∀ code partialOut e, bundler b.code (blockLoader b) = .ok code →
      vmRun code = .thrown partialOut e →
      runBlock bundler vmRun b = ⟨b, false, "", some (jsErrMessage e)⟩) ∧
    ((runBlock bundler vmRun b).success = false →
      (runBlock bundler vmRun b).output = "" ∧
      ((runBlock bundler vmRun b).error).isSome = true) := by
  refine ⟨?_, ?_, ?_, ?_⟩
  · intro code stdout hb hv
    simp [runBlock, hb, hv]
  · intro e hb
    simp [runBlock, hb]
  · intro code partialOut e hb hv
    simp [runBlock, hb, hv]
  · intro hfail
    rw [runBlock] at hfail ⊢
    cases hb : bundler b.code (blockLoader b) with
    | error e => simp
    | ok code =>
      rw [hb] at hfail
      dsimp only at hfail ⊢
      cases hv : vmRun code with
      | ok stdout => rw [hv] at hfail; simp at hfail
      | thrown partialOut e => simp

/-- Witness for C1 at a concrete failing bundler: the timeout-style error
is converted into a failing result with empty output and a message. -/
theorem runBlock_pure_boundary_witness :
    runBlock (fun _ _ => Except.error
        (JsVal.errorObj "Script execution timed out after 5000ms"))
      (fun _ => VmOutcome.ok "")
      ⟨"ts", "while(true){}", "doc.md", 1, some ""⟩ =
      ⟨⟨"ts", "while(true){}", "doc.md", 1, some ""⟩, false, "",
        some "Script execution timed out after 5000ms"⟩ :=
  (runBlock_pure_boundary
      (fun _ _ => Except.error
        (JsVal.errorObj "Script execution timed out after 5000ms"))
      (fun _ => VmOutcome.ok "")
      ⟨"ts", "while(true){}", "doc.md", 1, some ""⟩).2.1
    (JsVal.errorObj "Script execution timed out after 5000ms") rfl

/-- C2 counterexample: the source filter tests the opt-out token by
substring containment (`block.meta?.includes('nocheck')`), not as a
standalone word: a block whose info string is "nochecks" contains
"nocheck" only as a proper substring, so the spec's standalone-word
predicate keeps it, yet `filterTestableBlocks` drops it. -/
theorem filter_standalone_word_counterexample :
    specKeepsBlock ⟨"ts", "let x = 1", "doc.md", 1, some "nochecks"⟩ = true ∧
    filterTestableBlocks [⟨"ts", "let x = 1", "doc.md", 1, some "nochecks"⟩] = [] := by
  decide

/-- C2 (amended): `filterTestableBlocks` keeps exactly those blocks whose
language is case-insensitively one of typescript/ts/javascript/js and
whose info string — when present — does not contain "nocheck" as a
substring, preserving input order (the output is a sublist of the input);
a block whose info string contains the substring never reaches the kept
list. -/
theorem filter_substring_semantics (blocks : List CodeBlock) :
    (filterTestableBlocks blocks).Sublist blocks ∧
    (∀ b, b ∈ filterTestableBlocks blocks ↔
      (b ∈ blocks ∧ lowerStr b.language ∈ testableLanguages ∧
        ∀ metaStr, b.meta = some metaStr → strIncludes metaStr "nocheck" = false)) := by
  refine ⟨List.filter_sublist _, ?_⟩
  intro b
  rw [filterTestableBlocks, List.mem_filter, isTestableBlock_iff]

/-- Witness for C2 at a concrete two-block list: the nocheck-substring
block is dropped, the clean block kept. -/
theorem filter_substring_semantics_witness :
    (filterTestableBlocks
        [⟨"js", "a()", "doc.md", 1, some "nocheck"⟩,
         ⟨"js", "b()", "doc.md", 5, some ""⟩]).Sublist
      [⟨"js", "a()", "doc.md", 1, some "nocheck"⟩,
       ⟨"js", "b()", "doc.md", 5, some ""⟩] ∧
    ¬ (⟨"js", "a()", "doc.md", 1, some "nocheck"⟩ : CodeBlock) ∈
        filterTestableBlocks
          [⟨"js", "a()", "doc.md", 1, some "nocheck"⟩,
           ⟨"js", "b()", "doc.md", 5, some ""⟩] :=
  ⟨(filter_substring_semantics
      [⟨"js", "a()", "doc.md", 1, some "nocheck"⟩,
       ⟨"js", "b()", "doc.md", 5, some ""⟩]).1,
   fun hmem => by
    have h := ((filter_substring_semantics
      [⟨"js", "a()", "doc.md", 1, some "nocheck"⟩,
       ⟨"js", "b()", "doc.md", 5, some ""⟩]).2 _).mp hmem
    have := h.2.2 "nocheck" rfl
    exact absurd this (by decide)⟩

/-- C3: for concurrency N ≥ 1 over M work items, the pool always holds
exactly `min N M` workers (the spawn count), at most N executions are ever
in flight in any reachable state, and when all workers have terminated
every results slot has been written exactly once (each work item claimed
and executed exactly once). -/
theorem scheduler_exactly_once_bounded (n m : Nat) (hn : 1 ≤ n) (s : Sched)
    (h : SchedReachable n m s) :
    s.workers.length = min n m ∧
    inFlight s ≤ n ∧
    (SchedTerminal s = true → ∀ i, i < m → s.results.getD i 0 = 1) := by
  have inv := schedInv_reachable h
  refine ⟨inv.wlen, ?_, ?_⟩
  · calc inFlight s ≤ s.workers.length := List.countP_le_length _
      _ = min n m := inv.wlen
      _ ≤ n := Nat.min_le_left n m
  · intro hterm i hi
    have hbal := inv.balance i hi
    have hrc : runCount s.workers i = 0 := by
      rw [runCount, List.countP_eq_zero]
      intro a ha
      have := List.all_eq_true.mp hterm a ha
      simp only [decide_eq_true_eq] at this
      subst this
      simp
    have hcur : m ≤ s.cursor := by
      have hlen : 0 < s.workers.length := by
        rw [inv.wlen]
        omega
      have hget : s.workers.get? 0 = some (s.workers.get ⟨0, hlen⟩) :=
        List.get?_eq_get hlen
      have hmem : s.workers.get ⟨0, hlen⟩ ∈ s.workers := by
        exact List.get_mem _ _ _
      have hdone := List.all_eq_true.mp hterm _ hmem
      simp only [decide_eq_true_eq] at hdone
      rw [hdone] at hget
      exact inv.doneCursor 0 hget
    rw [hrc, if_pos (by omega)] at hbal
    omega

/-- Witness for C3: a concrete terminal run with one worker and one item
(claim, finish, stop), reaching the state where the single results slot
was written exactly once. -/
theorem scheduler_exactly_once_bounded_witness :
    (⟨1, [WStatus.done], [1]⟩ : Sched).workers.length = min 1 1 ∧
    inFlight (⟨1, [WStatus.done], [1]⟩ : Sched) ≤ 1 ∧
    (SchedTerminal (⟨1, [WStatus.done], [1]⟩ : Sched) = true →
      ∀ i, i < 1 → (⟨1, [WStatus.done], [1]⟩ : Sched).results.getD i 0 = 1) :=
  scheduler_exactly_once_bounded 1 1 (by decide) ⟨1, [.done], [1]⟩
    (Relation.ReflTransGen.head (SchedStep.claim (initSched 1 1) 0 rfl (by decide))
      (Relation.ReflTransGen.head (SchedStep.finish _ 0 0 rfl)
        (Relation.ReflTransGen.single (SchedStep.stop _ 0 rfl (by decide)))))

/-- C4: a nonexistent path yields counts (0, 1) — a failure recorded
before any blocks are processed (the trace is the single not-found error
message) — and exit code 1; for a resolved path the exit code is 0 exactly
when every executed block passed, which includes the case of zero eligible
blocks. -/
theorem exit_code_semantics (exec : CodeBlock → RunResult) (cleanErr : String → String)
    (path : String) (conc : Nat) :
    (runModel exec cleanErr path none conc).1 = (0, 1) ∧
    mainExitCode (runModel exec cleanErr path none conc).1 = 1 ∧
    (runModel exec cleanErr path none conc).2 =
      [.err ("Error: Path not found: " ++ path ++ "\n")] ∧
    (∀ files,
      mainExitCode (runModel exec cleanErr path (some files) conc).1 = 0 ↔
        ∀ b ∈ allBlocksOf files, (exec b).success = true) := by
  refine ⟨rfl, rfl, rfl, ?_⟩
  intro files
  rw [runModel]
  dsimp only
  by_cases hE : (allBlocksOf files).isEmpty
  · rw [if_pos hE]
    dsimp only [mainExitCode]
    rw [List.isEmpty_iff] at hE
    constructor
    · intro _ b hb
      rw [hE] at hb
      simp at hb
    · intro _
      rfl
  · rw [if_neg hE]
    dsimp only [mainExitCode]
    constructor
    · intro h0 b hb
      by_contra hbs
      have hbmem : b ∈ (allBlocksOf files).filter (fun x => !(exec x).success) :=
        List.mem_filter.mpr ⟨hb, by simp [Bool.not_eq_true] at hbs ⊢; exact hbs⟩
      have hpos : 0 < ((allBlocksOf files).filter (fun x => !(exec x).success)).length :=
        List.length_pos.mpr (List.ne_nil_of_mem hbmem)
      rw [if_pos hpos] at h0
      exact absurd h0 (by simp)
    · intro hall
      have hfe : (allBlocksOf files).filter (fun x => !(exec x).success) = [] :=
        List.filter_eq_nil_iff.mpr (fun a ha => by simp [hall a ha])
      rw [hfe]
      simp

/-- Witness for C4 at a concrete missing path and a concrete resolved
empty-tree run. -/
theorem exit_code_semantics_witness :
    mainExitCode (runModel (fun b => ⟨b, true, "", none⟩) (fun e => e)
        "missing" none 2).1 = 1 ∧
    (mainExitCode (runModel (fun b => ⟨b, true, "", none⟩) (fun e => e)
        "docs" (some []) 2).1 = 0 ↔
      ∀ b ∈ allBlocksOf [], ((fun b => (⟨b, true, "", none⟩ : RunResult)) b).success = true) :=
  ⟨(exit_code_semantics (fun b => ⟨b, true, "", none⟩) (fun e => e) "missing" 2).2.1,
   (exit_code_semantics (fun b => ⟨b, true, "", none⟩) (fun e => e) "docs" 2).2.2.2 []⟩

/-- C5 counterexample: a run that finds zero eligible blocks emits the
"No testable code blocks found." notice and returns — no event of the run
contains the final-summary fragment "passed", so no "0/0 passed" summary
line is emitted, contrary to the claim's "including runs in which zero
eligible blocks were found". -/
theorem zero_blocks_no_summary_counterexample :
    runModel (fun b => ⟨b, true, "", none⟩) (fun e => e) "docs"
        (some [("a.md", "hello")]) 4 =
      ((0, 0),
        [.out "Found 1 markdown file(s) (4 workers)\n\n",
         .out "No testable code blocks found.\n"]) ∧
    ((runModel (fun b => ⟨b, true, "", none⟩) (fun e => e) "docs"
        (some [("a.md", "hello")]) 4).2.all (fun ev =>
          match ev with
          | OutEvent.out s => !(strIncludes s "passed")
          | OutEvent.err s => !(strIncludes s "passed"))) = true := by
  decide

/-- C5 (amended): when at least one eligible block exists, the run's last
emitted event is the summary line `"Results: <passed>/<total> passed"`,
coloured red exactly when `failed > 0` and green otherwise; when zero
eligible blocks are found the run instead ends with the
"No testable code blocks found." notice and emits no summary line. -/
theorem final_summary_line (exec : CodeBlock → RunResult) (cleanErr : String → String)
    (path : String) (conc : Nat) (files : List (String × String)) :
    (allBlocksOf files = [] →
      (runModel exec cleanErr path (some files) conc).2.getLast? =
        some (.out "No testable code blocks found.\n")) ∧
    (allBlocksOf files ≠ [] →
      (runModel exec cleanErr path (some files) conc).2.getLast? =
        some (.out (summaryLine
          ((allBlocksOf files).filter (fun b => (exec b).success)).length
          ((allBlocksOf files).filter (fun b => !(exec b).success)).length
          (allBlocksOf files).length))) ∧
    (∀ p f t, 0 < f →
      summaryLine p f t =
        "\x1b[31m" ++ "Results: " ++ Nat.repr p ++ "/" ++ Nat.repr t ++
          " passed\x1b[0m\n") ∧
    (∀ p t, summaryLine p 0 t =
      "\x1b[32m" ++ "Results: " ++ Nat.repr p ++ "/" ++ Nat.repr t ++
        " passed\x1b[0m\n") := by
  refine ⟨?_, ?_, ?_, ?_⟩
  · intro hnil
    rw [runModel]
    dsimp only
    rw [if_pos (by rw [List.isEmpty_iff]; exact hnil)]
    rfl
  · intro hne
    rw [runModel]
    dsimp only
    rw [if_neg (by rw [List.isEmpty_iff]; exact hne)]
    dsimp only
    rw [show ∀ (X : List OutEvent) (a b : OutEvent), X ++ [a, b] = (X ++ [a]) ++ [b]
      from fun X a b => by simp]
    exact List.getLast?_concat _
  · intro p f t hf
    rw [summaryLine, if_pos hf]
  · intro p t
    rw [summaryLine, if_neg (by omega)]

/-- Witness for C5 at concrete runs: one with a single passing js block
(summary line last) and one with no eligible blocks (notice last). -/
theorem final_summary_line_witness :
    (runModel (fun b => ⟨b, true, "", none⟩) (fun e => e) "docs"
        (some [("a.md", "x\n```js\nf()\n```\n")]) 2).2.getLast? =
      some (.out (summaryLine
        ((allBlocksOf [("a.md", "x\n```js\nf()\n```\n")]).filter
          (fun b => ((fun b => (⟨b, true, "", none⟩ : RunResult)) b).success)).length
        ((allBlocksOf [("a.md", "x\n```js\nf()\n```\n")]).filter
          (fun b => !((fun b => (⟨b, true, "", none⟩ : RunResult)) b).success)).length
        (allBlocksOf [("a.md", "x\n```js\nf()\n```\n")]).length)) :=
  (final_summary_line (fun b => ⟨b, true, "", none⟩) (fun e => e) "docs" 2
    [("a.md", "x\n```js\nf()\n```\n")]).2.1 (by decide)

/-- C6 counterexample: the extractor does not lowercase the language tag
(`match[1] || 'text'` keeps its case): a fence tagged `TS` produces a
record whose language is "TS", not the lowercased "ts" the claim
describes. -/
theorem parse_language_not_lowercased :
    (parseMarkdown "```TS\nlet x = 1\n```" "doc.md").map CodeBlock.language = ["TS"] ∧
    lowerStr "TS" = "ts" ∧ ("TS" : String) ≠ "ts" := by
  decide

/-- C6 (amended): for every document text, each record `parseMarkdown`
produces comes from a matched fence at its recorded index: the document
there decomposes into the opening delimiter, the word-character language
capture, the raw info capture, a newline, the body — exactly the text
between the fence lines, exclusive of both — and the closing delimiter;
the record's language is the tag as written (not lowercased), defaulting
to "text" when the tag is absent, its code is exactly that body, and its
info string is trimmed.  Moreover a single well-formed fence is extracted
exactly once with those fields, and a fence without a matching close
before end-of-document produces no record (shown at an unterminated
document). -/
theorem parse_fence_extraction (content filePath : String) :
    (∀ b ∈ parseMarkdown content filePath,
      ∃ i lang info body rest,
        (b, i) ∈ parseMarkdownIdx content filePath ∧
        content.data.drop i =
          fenceChars ++ (lang ++ info ++ '\n' :: (body ++ fenceChars ++ rest)) ∧
        lang = ((content.data.drop i).drop 3).takeWhile isWordChar ∧
        info = (((content.data.drop i).drop 3).dropWhile isWordChar).takeWhile
          (fun c => c ≠ '\n') ∧
        b.language = (if lang.isEmpty then "text" else String.mk lang) ∧
        b.code = String.mk body ∧
        b.file = filePath ∧
        b.meta = some (String.mk (listTrim info))) ∧
    (∀ lang info body,
      (∀ c ∈ lang, isWordChar c = true) →
      (∀ c ∈ info, (c ≠ '\n' : Bool) = true) →
      (∀ c t, info = c :: t → isWordChar c = false) →
      findClose true (body ++ fenceChars) = some (body, []) →
      parseMarkdown
          (String.mk (fenceChars ++ (lang ++ info ++ '\n' :: (body ++ fenceChars))))
          filePath =
        [{ language := if lang.isEmpty then "text" else String.mk lang
           code := String.mk body
           file := filePath
           line := 1
           meta := some (String.mk (listTrim info)) }]) ∧
    parseMarkdown "```js\nlet x = 1" "doc.md" = [] := by
  refine ⟨?_, ?_, by decide⟩
  · intro b hb
    rw [parseMarkdown] at hb
    obtain ⟨⟨b', i⟩, hmem, hfst⟩ := List.mem_map.mp hb
    dsimp at hfst
    subst hfst
    obtain ⟨k, lang, info, body, rest, hk1, h2, h3, h4, h5, h6, h7, h8⟩ :=
      parseAux_record filePath (content.data.length + 1) content.data 1 true 0 b' i hmem
    have hki : k = i := by omega
    subst hki
    exact ⟨k, lang, info, body, rest, hmem, h2, h3, h4, h5, h6, h7, h8⟩
  · intro lang info body h1 h2 h3 h4
    exact parse_single_fence lang info body filePath h1 h2 h3 h4

/-- Witness for C6 at a concrete document with prose before the fence,
trailing text after it and a second, unterminated fence: the single
produced record (language "TS" as written, body exactly between the
fences, trimmed info "info") satisfies the characterization at its
match index. -/
theorem parse_fence_extraction_witness :
    parseMarkdown "hello\n\n```TS info \nbody1\nbody2\n```\ntrail\n```py\nunclosed"
        "doc.md" =
      [⟨"TS", "body1\nbody2\n", "doc.md", 3, some "info"⟩] ∧
    (∃ i lang info body rest,
      ((⟨"TS", "body1\nbody2\n", "doc.md", 3, some "info"⟩ : CodeBlock), i) ∈
        parseMarkdownIdx "hello\n\n```TS info \nbody1\nbody2\n```\ntrail\n```py\nunclosed"
          "doc.md" ∧
      ("hello\n\n```TS info \nbody1\nbody2\n```\ntrail\n```py\nunclosed" : String).data.drop i =
        fenceChars ++ (lang ++ info ++ '\n' :: (body ++ fenceChars ++ rest)) ∧
      lang = ((("hello\n\n```TS info \nbody1\nbody2\n```\ntrail\n```py\nunclosed" : String).data.drop
        i).drop 3).takeWhile isWordChar ∧
      info = (((("hello\n\n```TS info \nbody1\nbody2\n```\ntrail\n```py\nunclosed" : String).data.drop
        i).drop 3).dropWhile isWordChar).takeWhile (fun c => c ≠ '\n') ∧
      (⟨"TS", "body1\nbody2\n", "doc.md", 3, some "info"⟩ : CodeBlock).language =
        (if lang.isEmpty then "text" else String.mk lang) ∧
      (⟨"TS", "body1\nbody2\n", "doc.md", 3, some "info"⟩ : CodeBlock).code =
        String.mk body ∧
      (⟨"TS", "body1\nbody2\n", "doc.md", 3, some "info"⟩ : CodeBlock).file = "doc.md" ∧
      (⟨"TS", "body1\nbody2\n", "doc.md", 3, some "info"⟩ : CodeBlock).meta =
        some (String.mk (listTrim info))) :=
  ⟨by decide,
   (parse_fence_extraction "hello\n\n```TS info \nbody1\nbody2\n```\ntrail\n```py\nunclosed"
      "doc.md").1 ⟨"TS", "body1\nbody2\n", "doc.md", 3, some "info"⟩ (by decide)⟩

/-- C7: every extracted block's `line` field is the 1-based line number of
its opening fence: one plus the number of newline characters preceding the
match start (and the match start indeed carries a fence delimiter). -/
theorem block_line_number (content filePath : String) :
    ∀ b ∈ parseMarkdown content filePath,
      ∃ i, (b, i) ∈ parseMarkdownIdx content filePath ∧
        startsWithFence (content.data.drop i) = true ∧
        b.line = 1 + countNl (content.data.take i) := by
  intro b hb
  rw [parseMarkdown] at hb
  obtain ⟨⟨b', i⟩, hmem, hfst⟩ := List.mem_map.mp hb
  dsimp at hfst
  subst hfst
  obtain ⟨k, hk1, hk2, hk3, hk4⟩ :=
    parseAux_line filePath (content.data.length + 1) content.data 1 true 0 b' i hmem
  have hki : k = i := by omega
  subst hki
  exact ⟨k, hmem, hk3, hk4⟩

/-- Witness for C7: the fence opens on line 2 of a concrete document
(one newline precedes the match start at index 3). -/
theorem block_line_number_witness :
    ∃ i, ((⟨"js", "x\n", "doc.md", 2, some ""⟩ : CodeBlock), i) ∈
        parseMarkdownIdx "ab\n```js\nx\n```" "doc.md" ∧
      startsWithFence (("ab\n```js\nx\n```" : String).data.drop i) = true ∧
      (⟨"js", "x\n", "doc.md", 2, some ""⟩ : CodeBlock).line =
        1 + countNl (("ab\n```js\nx\n```" : String).data.take i) :=
  block_line_number "ab\n```js\nx\n```" "doc.md"
    ⟨"js", "x\n", "doc.md", 2, some ""⟩ (by decide)

/-- C8 counterexample: the sandbox shares mutable host state by reference
across invocations — `process.env` and the injected host objects (error
constructors and their prototypes, `Buffer`, `assert`, timers, required
modules).  A block that sets `env.X` changes what a later block reading
`X` logs ("1\n" after the writer versus "undefined\n" alone); likewise a
block that overwrites `Error.prototype.toString` changes what a later
block observing it logs ("evil\n" versus "function toString\n" alone).
Either mutation changes the other block's observable result, refuting the
claim. -/
theorem shared_env_interference :
    ((runTwoShared [SandboxCmd.envWrite "X" "1"] [SandboxCmd.envRead "X"]
        ⟨"js", "process.env.X = '1'", "a.md", 1, some ""⟩
        ⟨"js", "console.log(process.env.X)", "b.md", 1, some ""⟩
        ⟨[], []⟩).2.1.output = "1\n" ∧
      (runBlockShared [SandboxCmd.envRead "X"]
        ⟨"js", "console.log(process.env.X)", "b.md", 1, some ""⟩
        ⟨[], []⟩).1.output = "undefined\n" ∧
      (runTwoShared [SandboxCmd.envWrite "X" "1"] [SandboxCmd.envRead "X"]
        ⟨"js", "process.env.X = '1'", "a.md", 1, some ""⟩
        ⟨"js", "console.log(process.env.X)", "b.md", 1, some ""⟩
        ⟨[], []⟩).2.1 ≠
        (runBlockShared [SandboxCmd.envRead "X"]
          ⟨"js", "console.log(process.env.X)", "b.md", 1, some ""⟩
          ⟨[], []⟩).1) ∧
    ((runTwoShared [SandboxCmd.hostWrite "Error.prototype" "toString" "evil"]
        [SandboxCmd.hostRead "Error.prototype" "toString"]
        ⟨"js", "Error.prototype.toString = 'evil'", "a.md", 1, some ""⟩
        ⟨"js", "console.log(Error.prototype.toString)", "b.md", 1, some ""⟩
        ⟨[], [(("Error.prototype", "toString"), "function toString")]⟩).2.1.output =
        "evil\n" ∧
      (runBlockShared [SandboxCmd.hostRead "Error.prototype" "toString"]
        ⟨"js", "console.log(Error.prototype.toString)", "b.md", 1, some ""⟩
        ⟨[], [(("Error.prototype", "toString"), "function toString")]⟩).1.output =
        "function toString\n" ∧
      (runTwoShared [SandboxCmd.hostWrite "Error.prototype" "toString" "evil"]
        [SandboxCmd.hostRead "Error.prototype" "toString"]
        ⟨"js", "Error.prototype.toString = 'evil'", "a.md", 1, some ""⟩
        ⟨"js", "console.log(Error.prototype.toString)", "b.md", 1, some ""⟩
        ⟨[], [(("Error.prototype", "toString"), "function toString")]⟩).2.1 ≠
        (runBlockShared [SandboxCmd.hostRead "Error.prototype" "toString"]
          ⟨"js", "console.log(Error.prototype.toString)", "b.md", 1, some ""⟩
          ⟨[], [(("Error.prototype", "toString"), "function toString")]⟩).1) := by
  decide

/-- C8 (amended): each invocation constructs a fresh sandbox container
with a fresh console buffer, never reused; but the sandbox injects host
state by reference — `process.env`, the error constructors and their
prototypes, `Buffer`, `assert`, the timers, and modules returned by the
`require` shim — so mutations made through any of these by one block can
change the observable result of another; for two blocks neither of which
writes any shared host state, running in either order each block's result
equals its run-alone result and the shared state is unchanged. -/
theorem sandbox_isolation_modulo_env (aCmds bCmds : List SandboxCmd)
    (ba bb : CodeBlock) (st : HostShared)
    (hA : writesShared aCmds = false) (hB : writesShared bCmds = false) :
    (runTwoShared aCmds bCmds ba bb st).1 = (runBlockShared aCmds ba st).1 ∧
    (runTwoShared aCmds bCmds ba bb st).2.1 = (runBlockShared bCmds bb st).1 ∧
    (runTwoShared bCmds aCmds bb ba st).2.1 = (runBlockShared aCmds ba st).1 ∧
    (runTwoShared bCmds aCmds bb ba st).1 = (runBlockShared bCmds bb st).1 ∧
    (runTwoShared aCmds bCmds ba bb st).2.2 = st := by
  have ha := runBlockShared_no_writes hA ba st
  have hb := runBlockShared_no_writes hB bb st
  refine ⟨rfl, ?_, ?_, rfl, ?_⟩
  · show (runBlockShared bCmds bb (runBlockShared aCmds ba st).2).1 = _
    rw [ha]
  · show (runBlockShared aCmds ba (runBlockShared bCmds bb st).2).1 = _
    rw [hb]
  · show (runBlockShared bCmds bb (runBlockShared aCmds ba st).2).2 = st
    rw [ha]
    exact runBlockShared_no_writes hB bb st

/-- Witness for C8 at concrete blocks writing no shared host state: a
logger, an env reader and a host-object reader, in both orders, over a
concrete shared state. -/
theorem sandbox_isolation_modulo_env_witness :
    (runTwoShared [SandboxCmd.consoleLog "hi"]
        [SandboxCmd.envRead "HOME", SandboxCmd.hostRead "Error.prototype" "name"]
        ⟨"js", "console.log('hi')", "a.md", 1, some ""⟩
        ⟨"js", "console.log(process.env.HOME, Error.prototype.name)", "b.md", 1, some ""⟩
        ⟨[("HOME", "/root")], [(("Error.prototype", "name"), "Error")]⟩).1 =
      (runBlockShared [SandboxCmd.consoleLog "hi"]
        ⟨"js", "console.log('hi')", "a.md", 1, some ""⟩
        ⟨[("HOME", "/root")], [(("Error.prototype", "name"), "Error")]⟩).1 ∧
    (runTwoShared [SandboxCmd.consoleLog "hi"]
        [SandboxCmd.envRead "HOME", SandboxCmd.hostRead "Error.prototype" "name"]
        ⟨"js", "console.log('hi')", "a.md", 1, some ""⟩
        ⟨"js", "console.log(process.env.HOME, Error.prototype.name)", "b.md", 1, some ""⟩
        ⟨[("HOME", "/root")], [(("Error.prototype", "name"), "Error")]⟩).2.1 =
      (runBlockShared
        [SandboxCmd.envRead "HOME", SandboxCmd.hostRead "Error.prototype" "name"]
        ⟨"js", "console.log(process.env.HOME, Error.prototype.name)", "b.md", 1, some ""⟩
        ⟨[("HOME", "/root")], [(("Error.prototype", "name"), "Error")]⟩).1 ∧
    (runTwoShared
        [SandboxCmd.envRead "HOME", SandboxCmd.hostRead "Error.prototype" "name"]
        [SandboxCmd.consoleLog "hi"]
        ⟨"js", "console.log(process.env.HOME, Error.prototype.name)", "b.md", 1, some ""⟩
        ⟨"js", "console.log('hi')", "a.md", 1, some ""⟩
        ⟨[("HOME", "/root")], [(("Error.prototype", "name"), "Error")]⟩).2.1 =
      (runBlockShared [SandboxCmd.consoleLog "hi"]
        ⟨"js", "console.log('hi')", "a.md", 1, some ""⟩
        ⟨[("HOME", "/root")], [(("Error.prototype", "name"), "Error")]⟩).1 ∧
    (runTwoShared
        [SandboxCmd.envRead "HOME", SandboxCmd.hostRead "Error.prototype" "name"]
        [SandboxCmd.consoleLog "hi"]
        ⟨"js", "console.log(process.env.HOME, Error.prototype.name)", "b.md", 1, some ""⟩
        ⟨"js", "console.log('hi')", "a.md", 1, some ""⟩
        ⟨[("HOME", "/root")], [(("Error.prototype", "name"), "Error")]⟩).1 =
      (runBlockShared
        [SandboxCmd.envRead "HOME", SandboxCmd.hostRead "Error.prototype" "name"]
        ⟨"js", "console.log(process.env.HOME, Error.prototype.name)", "b.md", 1, some ""⟩
        ⟨[("HOME", "/root")], [(("Error.prototype", "name"), "Error")]⟩).1 ∧
    (runTwoShared [SandboxCmd.consoleLog "hi"]
        [SandboxCmd.envRead "HOME", SandboxCmd.hostRead "Error.prototype" "name"]
        ⟨"js", "console.log('hi')", "a.md", 1, some ""⟩
        ⟨"js", "console.log(process.env.HOME, Error.prototype.name)", "b.md", 1, some ""⟩
        ⟨[("HOME", "/root")], [(("Error.prototype", "name"), "Error")]⟩).2.2 =
      ⟨[("HOME", "/root")], [(("Error.prototype", "name"), "Error")]⟩ :=
  sandbox_isolation_modulo_env [SandboxCmd.consoleLog "hi"]
    [SandboxCmd.envRead "HOME", SandboxCmd.hostRead "Error.prototype" "name"]
    ⟨"js", "console.log('hi')", "a.md", 1, some ""⟩
    ⟨"js", "console.log(process.env.HOME, Error.prototype.name)", "b.md", 1, some ""⟩
    ⟨[("HOME", "/root")], [(("Error.prototype", "name"), "Error")]⟩
    (by decide) (by decide)

/-- C9: the sandbox `require` shim admits exactly the fixed set of
built-in specifiers — identifiers with the `node:` scheme or one of
assert/path/fs/util — delegating those to the host loader, and raises
immediately (without attempting resolution) for every identifier outside
that allow-list. -/
theorem require_shim_allowlist (id : String) :
    (isAllowedModule id = false →
      requireShim id =
        .raised ("Cannot require '" ++ id ++ "' - imports should be bundled by esbuild")) ∧
    (isAllowedModule id = true → requireShim id = .hostResolution id) ∧
    (isAllowedModule id = true ↔
      (listStarts nodeColon.data id.data = true ∨ id ∈ requireAllowList)) := by
  refine ⟨?_, ?_, ?_⟩
  · intro h
    rw [requireShim, if_neg (by simp [h])]
  · intro h
    rw [requireShim, if_pos h]
  · rw [isAllowedModule, Bool.or_eq_true]
    constructor
    · rintro (h | h)
      · exact Or.inl h
      · exact Or.inr (List.elem_iff.mp h)
    · rintro (h | h)
      · exact Or.inl h
      · exact Or.inr (List.elem_iff.mpr h)

/-- Witness for C9: a package name outside the allow-list raises
immediately; an allow-listed builtin and a `node:`-scheme specifier are
delegated to the host loader. -/
theorem require_shim_allowlist_witness :
    requireShim "lodash" =
      .raised ("Cannot require '" ++ "lodash" ++ "' - imports should be bundled by esbuild") ∧
    requireShim "path" = .hostResolution "path" ∧
    requireShim "node:fs" = .hostResolution "node:fs" :=
  ⟨(require_shim_allowlist "lodash").1 (by decide),
   (require_shim_allowlist "path").2.1 (by decide),
   (require_shim_allowlist "node:fs").2.1 (by decide)⟩

/-- C10: eligibility filtering lowercases the tag but `runBlock` compares
the tag case-sensitively against 'typescript'/'ts' to choose the loader:
a block whose tag is an uppercase variant of a TypeScript tag is eligible
(kept by the filter) yet bundled with the default js loader — its source
is not treated as TypeScript. -/
theorem uppercase_tag_eligible_not_transpiled (b : CodeBlock)
    (hts : lowerStr b.language = "typescript" ∨ lowerStr b.language = "ts")
    (h1 : b.language ≠ "typescript") (h2 : b.language ≠ "ts")
    (hmeta : ∀ m, b.meta = some m → strIncludes m "nocheck" = false) :
    isTestableBlock b = true ∧ filterTestableBlocks [b] = [b] ∧ blockLoader b = .js := by
  have htest : isTestableBlock b = true := by
    rw [isTestableBlock_iff]
    refine ⟨?_, hmeta⟩
    rcases hts with h | h <;> simp [testableLanguages, h]
  refine ⟨htest, ?_, ?_⟩
  · rw [filterTestableBlocks]
    simp [List.filter_cons, htest]
  · rw [blockLoader, if_neg (by simp [h1, h2])]

/-- Witness for C10 at a block tagged "TS": eligible, kept, js loader. -/
theorem uppercase_tag_eligible_not_transpiled_witness :
    isTestableBlock ⟨"TS", "let x: number = 1", "doc.md", 1, some ""⟩ = true ∧
    filterTestableBlocks [⟨"TS", "let x: number = 1", "doc.md", 1, some ""⟩] =
      [⟨"TS", "let x: number = 1", "doc.md", 1, some ""⟩] ∧
    blockLoader ⟨"TS", "let x: number = 1", "doc.md", 1, some ""⟩ = .js :=
  uppercase_tag_eligible_not_transpiled ⟨"TS", "let x: number = 1", "doc.md", 1, some ""⟩
    (by decide) (by decide) (by decide) (fun m hm => by
      injection hm with hm
      subst hm
      decide)

end Scribe
